import Mathlib

/-!
Shallow embedding of pyctd's import pipeline (`src/pyctd/manager/database.py`,
class `DbManager`).  Python strings are modeled as lists of characters
(`Str`), pandas cells as `Option` values (`none` = NaN / absent), a pandas
DataFrame row as an association list from column name to cell, and a chunked
read as explicit recursion over the row list with a running start index
(pandas' `read_table(..., chunksize=...)` keeps a global `RangeIndex` across
chunks).
-/

abbrev Str := List Char

/-- Whitespace removed by Python's `str.strip()` (the ASCII whitespace set). -/
def isPySpace (c : Char) : Bool :=
  c == ' ' || c == '\t' || c == '\n' || c == '\r' || c == '\x0b' || c == '\x0c'

/-- Python `str.strip()`: drop leading and trailing whitespace. -/
def pyStrip (s : Str) : Str :=
  ((s.dropWhile isPySpace).reverse.dropWhile isPySpace).reverse

/-- The literal `'MESH:'` hard-coded in `DbManager.mapper` and
`DbManager.import_table_in_db`. -/
def meshPat : Str := ['M', 'E', 'S', 'H', ':']

/-- Python / pandas `str.replace('MESH:', '')` (line 184): remove every
left-to-right, non-overlapping occurrence of the five characters `'MESH:'`;
on a match the scan resumes after the removed occurrence. -/
def removeMesh : Str → Str
  | [] => []
  | 'M' :: 'E' :: 'S' :: 'H' :: ':' :: rest => removeMesh rest
  | c :: cs => c :: removeMesh cs

/-- `'MESH:'` occurs (as a contiguous substring) somewhere in `s`. -/
def hasMesh : Str → Bool
  | [] => false
  | 'M' :: 'E' :: 'S' :: 'H' :: ':' :: _ => true
  | _ :: cs => hasMesh cs

/-- Python `str.split('|')` (line 291). -/
def splitPipe : Str → List Str
  | [] => [[]]
  | c :: cs =>
    if c = '|' then [] :: splitPipe cs
    else
      match splitPipe cs with
      | [] => [[c]]
      | p :: ps => (c :: p) :: ps

/-- The transformation `DbManager.mapper` applies to the natural-id column
read from a domain's file (lines 183-184): the chemical domain gets
`.str.replace('MESH:', '').str.strip()`, every other domain's values are
used unchanged. -/
def mapperKey (domain : String) (v : Str) : Str :=
  if domain = "chemical" then pyStrip (removeMesh v) else v

/-- `DbManager.mapper` restricted to one domain (lines 164-187): read the
natural-id column, transform it per `mapperKey`, then attach the surrogate
column `domain__id = df.index + 1` (line 186). -/
def mapper_domain (domain : String) (rows : List Str) : List (Str × Nat) :=
  ((rows.map (mapperKey domain)).enum).map (fun p => (p.2, p.1 + 1))

/-- Loop of `DbManager.get_index_and_columns_order` (lines 233-236): walk the
enumerated file header, keep the index of every column present in
`columns_dict` and its destination name. -/
def reconcile_loop (columns_dict : List (String × String)) :
    List (Nat × String) → List Nat × List String
  | [] => ([], [])
  | p :: rest =>
    let r := reconcile_loop columns_dict rest
    match columns_dict.lookup p.2 with
    | some dbName => (p.1 :: r.1, dbName :: r.2)
    | none => r

/-- `DbManager.get_index_and_columns_order` (lines 213-237): if the expected
columns are not a subset of the file's columns the drift is only logged and
both result lists stay empty; otherwise the enumerated header is filtered
through `columns_dict`. -/
def get_index_and_columns_order (columns_in_file_expected : List String)
    (columns_dict : List (String × String)) (column_names_from_file : List String) :
    List Nat × List String :=
  if columns_in_file_expected.all (fun c => column_names_from_file.contains c) then
    reconcile_loop columns_dict column_names_from_file.enum
  else
    ([], [])

/-- A cell value of a loaded chunk: a string from the file or a surrogate key
joined in from a domain mapping. -/
inductive Val
  | s (v : Str)
  | n (v : Nat)
deriving DecidableEq

/-- A DataFrame row: column name to cell, `none` = NaN. -/
abbrev Row := List (String × Option Val)

/-- Read a named cell of a row (absent column and NaN both read as `none`). -/
def rowGet (r : Row) (k : String) : Option Val :=
  (r.lookup k).join

/-- `del chunk[k]` (line 335). -/
def rowDel (r : Row) (k : String) : Row :=
  r.filter (fun p => !(p.1 == k))

/-- `'MESH:' + chunk.disease_id` on one cell (line 326); pandas propagates
NaN through the concatenation. -/
def meshify : Option Val → Option Val
  | some (Val.s v) => some (Val.s (meshPat ++ v))
  | x => x

/-- The `exposure_event` fix-up applied to one row (lines 325-326). -/
def updateDisease (r : Row) : Row :=
  r.map (fun p => if p.1 = "disease_id" then (p.1, meshify p.2) else p)

/-- `pd.merge(chunk, mapper[domain], on=domain_id, how='left')` followed by
`del chunk[domain_id]` (lines 334-335), for a single row: rows of the
mapping whose natural id equals the row's `<domain>_id` cell produce one
output row each carrying the surrogate in column `<domain>__id`; with no
match the row is kept once with a NaN surrogate. -/
def mergeRow (domain : String) (mapping : List (Str × Nat)) (r : Row) : List Row :=
  let key := domain ++ "_id"
  let hits : List (Str × Nat) :=
    match rowGet r key with
    | some (Val.s v) => mapping.filter (fun p => decide (p.1 = v))
    | _ => []
  let rd := rowDel r key
  match hits with
  | [] => [rd ++ [(domain ++ "__id", none)]]
  | ms => ms.map (fun p => rd ++ [(domain ++ "__id", some (Val.n p.2))])

/-- One iteration of the `for domain in table_conf.domains_to_map` loop of
`DbManager.import_table_in_db` (lines 331-335): if the domain's natural-id
column is in the read plan, merge every chunk row against the domain's
mapping (the chunk rows' ids ride along through the merge). -/
def mergeStep (column_names_in_db : List String)
    (mappings : List (String × List (Str × Nat)))
    (acc : List (Nat × Row)) (domain : String) : List (Nat × Row) :=
  if (domain ++ "_id") ∈ column_names_in_db then
    acc.flatMap (fun q =>
      (mergeRow domain ((mappings.lookup domain).getD []) q.2).map (fun r => (q.1, r)))
  else acc

/-- Body of the chunk loop of `DbManager.import_table_in_db` (lines 323-340):
the `exposure_event` fix-up, then `chunk['id'] = chunk.index + 1` (the running
pandas index starts at `start` for this chunk), then, unless the table is
itself a mappable domain, a left merge plus natural-id deletion for every
domain whose `<domain>_id` column is in the read plan. -/
def processChunk (table_name : String) (column_names_in_db : List String)
    (mappings : List (String × List (Str × Nat))) (domains_to_map : List String)
    (start : Nat) (chunk : List Row) : List (Nat × Row) :=
  let c1 := if table_name = "exposure_event" then chunk.map updateDisease else chunk
  let c2 := (List.enumFrom start c1).map (fun p => (p.1 + 1, p.2))
  if table_name ∈ domains_to_map then c2
  else
    domains_to_map.foldl (mergeStep column_names_in_db mappings) c2

/-- Chunked reading loop of `DbManager.import_table_in_db` (lines 315-342):
`read_table(..., chunksize=csize)` hands out consecutive slices of the file,
the pandas index continuing across chunk boundaries. -/
def import_table_go (csize : Nat) (t : String) (cols : List String)
    (mps : List (String × List (Str × Nat))) (doms : List String) :
    Nat → List Row → List (Nat × Row)
  | _, [] => []
  | start, a :: l =>
    processChunk t cols mps doms start (a :: l.take (csize - 1)) ++
      import_table_go csize t cols mps doms (start + 1 + (l.take (csize - 1)).length)
        (l.drop (csize - 1))
termination_by _ rows => rows.length
decreasing_by
  simp only [List.length_cons, List.length_drop]
  omega

/-- `DbManager.import_table_in_db` (lines 303-342) on the parsed data rows of
a file. -/
def import_table_in_db (csize : Nat) (t : String) (cols : List String)
    (mps : List (String × List (Str × Nat))) (doms : List String)
    (rows : List Row) : List (Nat × Row) :=
  import_table_go csize t cols mps doms 0 rows

/-- Body of the chunk loop of `DbManager.import_one_to_many` (lines 280-301):
`dropna` keeps each surviving cell's original pandas index label, `index += 1`
turns it into the parent surrogate key, and each value is split on `'|'` with
every piece stripped. -/
def processO2MChunk (start : Nat) (chunk : List (Option Str)) : List (Nat × Str) :=
  ((List.enumFrom start chunk).filterMap (fun p => p.2.map (fun v => (p.1 + 1, v)))).flatMap
    (fun q => (splitPipe q.2).map (fun piece => (q.1, pyStrip piece)))

/-- Chunked reading loop of `DbManager.import_one_to_many` (lines 272-301). -/
def import_o2m_go (csize : Nat) : Nat → List (Option Str) → List (Nat × Str)
  | _, [] => []
  | start, a :: l =>
    processO2MChunk start (a :: l.take (csize - 1)) ++
      import_o2m_go csize (start + 1 + (l.take (csize - 1)).length) (l.drop (csize - 1))
termination_by _ rows => rows.length
decreasing_by
  simp only [List.length_cons, List.length_drop]
  omega

/-- `DbManager.import_one_to_many` (lines 263-301) on the parsed one-column
data rows of a file. -/
def import_one_to_many (csize : Nat) (rows : List (Option Str)) : List (Nat × Str) :=
  import_o2m_go csize 0 rows

/-- Transcribed from the spec's words (section 4.4): per-row one-to-many
expansion on the whole file at once — drop absent values, split each present
value on the pipe, trim each piece, emit `(pre-dropna ordinal + 1, piece)`. -/
def expanderSpecFrom (start : Nat) (rows : List (Option Str)) : List (Nat × Str) :=
  (List.enumFrom start rows).flatMap (fun p =>
    match p.2 with
    | none => []
    | some v => (splitPipe v).map (fun piece => (p.1 + 1, pyStrip piece)))

/-- The spec's one-to-many expansion of a whole file. -/
def expanderSpec (rows : List (Option Str)) : List (Nat × Str) :=
  expanderSpecFrom 0 rows

/-- Transcribed from the spec's words for claim C4: strip a literal leading
`'MESH:'` prefix, then trim surrounding whitespace. -/
def specChemicalKey (v : Str) : Str :=
  pyStrip (if meshPat.isPrefixOf v then v.drop 5 else v)

/-- The four operations `DbManager.db_import` performs. -/
inductive ImportPhase
  | dropAll
  | download
  | createAll
  | loadAll
deriving DecidableEq

/-- The order in which `DbManager.db_import` (lines 146-149) performs its four
operations: `drop_tables()`, `download_urls(...)`, `create_tables()`,
`import_tables()`. -/
def db_import_phases : List ImportPhase :=
  [ImportPhase.dropAll, ImportPhase.download, ImportPhase.createAll, ImportPhase.loadAll]

/-- Transcribed from the spec's words (section 6): the claimed order
drop → recreate → download(if needed) → load-all. -/
def spec_db_import_phases : List ImportPhase :=
  [ImportPhase.dropAll, ImportPhase.createAll, ImportPhase.download, ImportPhase.loadAll]

/-! ### Properties of the `MESH:` removal -/

lemma removeMesh_meshPat_append (v : Str) :
    removeMesh (meshPat ++ v) = removeMesh v :=
  removeMesh.eq_2 v

lemma hasMesh_meshPat_append (v : Str) : hasMesh (meshPat ++ v) = true :=
  hasMesh.eq_2 v

lemma hasMesh_of_isPrefixOf {y : Str} (h : meshPat.isPrefixOf y = true) :
    hasMesh y = true := by
  rw [List.isPrefixOf_iff_prefix] at h
  obtain ⟨t, rfl⟩ := h
  exact hasMesh_meshPat_append t

lemma removeMesh_of_hasMesh_eq_false {s : Str} (h : hasMesh s = false) :
    removeMesh s = s := by
  induction s using removeMesh.induct with
  | case1 => rfl
  | case2 rest ih =>
    rw [hasMesh.eq_2] at h
    exact Bool.noConfusion h
  | case3 c cs hne ih =>
    rw [hasMesh.eq_3 c cs hne] at h
    rw [removeMesh.eq_3 c cs hne, ih h]

/-! ### Surrogate-key mapper lemmas -/

lemma mapper_domain_map_snd (domain : String) (rows : List Str) :
    (mapper_domain domain rows).map Prod.snd = List.range' 1 rows.length := by
  unfold mapper_domain
  rw [List.map_map]
  have h1 : (Prod.snd ∘ fun p : Nat × Str => (p.2, p.1 + 1)) = ((1 + ·) ∘ Prod.fst) := by
    funext p
    simp [Nat.add_comm]
  rw [h1, ← List.map_map, List.enum, List.enumFrom_map_fst, List.map_add_range']
  simp

lemma mem_mapper_domain {domain : String} {rows : List Str} {k : Str} {s : Nat}
    (h : (k, s) ∈ mapper_domain domain rows) :
    1 ≤ s ∧ (rows.map (mapperKey domain))[s - 1]? = some k := by
  unfold mapper_domain at h
  rcases List.mem_map.1 h with ⟨p, hp, hpe⟩
  rcases p with ⟨i, v⟩
  injection hpe with h1 h2
  subst h1
  subst h2
  have := List.mk_mem_enum_iff_getElem?.1 hp
  refine ⟨by omega, ?_⟩
  simpa using this

/-- C1: for every mappable domain, `DbManager.mapper` assigns each file row
the surrogate id 1 + its 0-based ordinal, so the surrogate ids of a file with
N data rows are exactly the list 1..N, each surrogate id belongs to exactly
one natural id, and (the natural-id keys of the file being distinct) each
distinct natural id receives exactly one surrogate id. -/
theorem mapper_surrogate_ids (domain : String) (rows : List Str)
    (hnd : (rows.map (mapperKey domain)).Nodup) :
    ((mapper_domain domain rows).map Prod.snd = List.range' 1 rows.length)
    ∧ (∀ i, i < rows.length →
        (mapper_domain domain rows)[i]? = some (mapperKey domain (rows.getD i []), i + 1))
    ∧ (∀ k₁ k₂ s, (k₁, s) ∈ mapper_domain domain rows →
        (k₂, s) ∈ mapper_domain domain rows → k₁ = k₂)
    ∧ (∀ k s₁ s₂, (k, s₁) ∈ mapper_domain domain rows →
        (k, s₂) ∈ mapper_domain domain rows → s₁ = s₂) := by
  refine ⟨mapper_domain_map_snd domain rows, ?_, ?_, ?_⟩
  · intro i hi
    unfold mapper_domain
    rw [List.getElem?_map, List.getElem?_enum, List.getElem?_map,
      List.getElem?_eq_getElem hi, List.getD_eq_getElem _ _ hi]
    rfl
  · intro k₁ k₂ s h₁ h₂
    obtain ⟨-, e₁⟩ := mem_mapper_domain h₁
    obtain ⟨-, e₂⟩ := mem_mapper_domain h₂
    rw [e₁] at e₂
    exact Option.some.inj e₂
  · intro k s₁ s₂ h₁ h₂
    obtain ⟨g₁, e₁⟩ := mem_mapper_domain h₁
    obtain ⟨g₂, e₂⟩ := mem_mapper_domain h₂
    have hlt : s₁ - 1 < (rows.map (mapperKey domain)).length := by
      by_contra hge
      rw [List.getElem?_eq_none (by omega)] at e₁
      exact Option.noConfusion e₁
    have := List.getElem?_inj hlt hnd (e₁.trans e₂.symm)
    omega

/-- Witness for C1 at a concrete two-row chemical file. -/
theorem mapper_surrogate_ids_witness :
    ((["MESH:D1", " D2 "].map (fun v => v.data)).map (mapperKey "chemical")).Nodup
    ∧ ((mapper_domain "chemical" (["MESH:D1", " D2 "].map (fun v => v.data))).map Prod.snd
        = List.range' 1 2) :=
  ⟨by decide,
    (mapper_surrogate_ids "chemical" (["MESH:D1", " D2 "].map (fun v => v.data))
      (by decide)).1⟩

/-- C3: when the expected columns are not a subset of the file header,
`get_index_and_columns_order` only logs and returns the empty read plan
(no exception is modeled because none is raised: the function is total and
falls through to `return` with both lists empty). -/
theorem get_index_and_columns_order_drift (expected : List String)
    (dict : List (String × String)) (header : List String)
    (h : ¬ ∀ c ∈ expected, c ∈ header) :
    get_index_and_columns_order expected dict header = ([], []) := by
  unfold get_index_and_columns_order
  rw [if_neg]
  intro hall
  rw [List.all_eq_true] at hall
  exact h fun c hc => by simpa using hall c hc

/-- Witness for C3: a header missing an expected column yields the empty plan. -/
theorem get_index_and_columns_order_drift_witness :
    (¬ ∀ c ∈ ["GeneID"], c ∈ (["ChemicalName", "ChemicalID"] : List String))
    ∧ get_index_and_columns_order ["GeneID"] [("GeneID", "gene_id")]
        ["ChemicalName", "ChemicalID"] = ([], []) :=
  ⟨by decide,
    get_index_and_columns_order_drift _ _ _ (by decide)⟩

/-- C9 counterexample: `db_import` does not perform
drop → recreate → download → load: it downloads before recreating
(lines 146-149 run `drop_tables`, `download_urls`, `create_tables`,
`import_tables` in that order). -/
theorem db_import_order_counterexample : db_import_phases ≠ spec_db_import_phases := by
  decide

/-- C9 amended: every invocation of `db_import` performs each of the four
steps exactly once, in the order drop all tables, then download the source
files if needed, then recreate all tables, then load all tables. -/
theorem db_import_order :
    db_import_phases.count ImportPhase.dropAll = 1
    ∧ db_import_phases.count ImportPhase.download = 1
    ∧ db_import_phases.count ImportPhase.createAll = 1
    ∧ db_import_phases.count ImportPhase.loadAll = 1
    ∧ db_import_phases.indexOf ImportPhase.dropAll
        < db_import_phases.indexOf ImportPhase.download
    ∧ db_import_phases.indexOf ImportPhase.download
        < db_import_phases.indexOf ImportPhase.createAll
    ∧ db_import_phases.indexOf ImportPhase.createAll
        < db_import_phases.indexOf ImportPhase.loadAll := by
  decide

lemma hasMesh_cons_mono (c : Char) (cs : Str) (h : hasMesh cs = true) :
    hasMesh (c :: cs) = true := by
  by_cases hp : meshPat.isPrefixOf (c :: cs) = true
  · exact hasMesh_of_isPrefixOf hp
  · rw [hasMesh.eq_3 c cs]
    · exact h
    · intro rest hc hcs
      apply hp
      rw [hc, hcs]
      simp [meshPat, List.isPrefixOf]

lemma mesh_prefix_overlap {s w : Str} (hs : s ≠ [])
    (h : meshPat.isPrefixOf (s ++ (meshPat ++ w)) = true) :
    hasMesh (s ++ w) = true := by
  rw [List.isPrefixOf_iff_prefix] at h
  rcases Nat.lt_or_ge s.length 5 with hs5 | hs5
  · exfalso
    have heq := List.prefix_iff_eq_take.1 h
    rw [show meshPat.length = 5 from rfl, List.take_append_eq_append_take,
      List.take_of_length_le (Nat.le_of_lt hs5),
      List.take_append_of_le_length (by simp [meshPat])] at heq
    rcases s with _ | ⟨c1, s⟩
    · exact hs rfl
    rcases s with _ | ⟨c2, s⟩
    · simp [meshPat] at heq
    rcases s with _ | ⟨c3, s⟩
    · simp [meshPat] at heq
    rcases s with _ | ⟨c4, s⟩
    · simp [meshPat] at heq
    rcases s with _ | ⟨c5, s⟩
    · simp [meshPat] at heq
    · simp at hs5
      omega
  · have heq := List.prefix_iff_eq_take.1 h
    rw [show meshPat.length = 5 from rfl, List.take_append_of_le_length hs5] at heq
    have hpre : meshPat <+: s := heq ▸ List.take_prefix 5 s
    exact hasMesh_of_isPrefixOf
      (List.isPrefixOf_iff_prefix.2 (hpre.trans (List.prefix_append s w)))

lemma removeMesh_mid {w : Str} :
    ∀ u : Str, hasMesh (u ++ w) = false → removeMesh (u ++ (meshPat ++ w)) = u ++ w := by
  intro u
  induction u with
  | nil =>
    intro h
    simp only [List.nil_append] at h ⊢
    rw [removeMesh_meshPat_append, removeMesh_of_hasMesh_eq_false h]
  | cons a u ih =>
    intro h
    simp only [List.cons_append] at h ⊢
    have hpre : meshPat.isPrefixOf (a :: (u ++ (meshPat ++ w))) = false := by
      by_contra hb
      rw [Bool.not_eq_false] at hb
      have hov := mesh_prefix_overlap (s := a :: u) (w := w) (by simp)
        (by simpa using hb)
      rw [List.cons_append] at hov
      rw [hov] at h
      exact Bool.noConfusion h
    have hcons : removeMesh (a :: (u ++ (meshPat ++ w)))
        = a :: removeMesh (u ++ (meshPat ++ w)) := by
      apply removeMesh.eq_3
      intro rest hA hRest
      apply absurd hpre
      rw [hA, hRest]
      simp [meshPat, List.isPrefixOf]
    have htail : hasMesh (u ++ w) = false := by
      by_contra hb
      rw [Bool.not_eq_false] at hb
      rw [hasMesh_cons_mono _ _ hb] at h
      exact Bool.noConfusion h
    rw [hcons, ih htail]

/-- C4 counterexample: the chemical mapper key is not prefix-stripping; on
`"XMESH:Y"` the code removes the inner occurrence, while stripping the
literal leading prefix and trimming would leave the value unchanged. -/
theorem chemical_key_counterexample :
    mapperKey "chemical" (String.data "XMESH:Y")
      ≠ specChemicalKey (String.data "XMESH:Y") := by
  decide

/-- C4 amended: when building the chemical domain's mapping, every
left-to-right occurrence of `'MESH:'` is removed (so on values where
`'MESH:'` occurs at most as a leading prefix this agrees with prefix
stripping), the result is whitespace-trimmed, `"MESH:D000123"` is keyed
`"D000123"`, and values of every other domain are keyed unchanged. -/
theorem chemical_key_amended :
    (∀ v : Str, hasMesh v = false → mapperKey "chemical" v = pyStrip v)
    ∧ (∀ v : Str, mapperKey "chemical" (meshPat ++ v) = mapperKey "chemical" v)
    ∧ mapperKey "chemical" (String.data "MESH:D000123") = String.data "D000123"
    ∧ ∀ (d : String) (v : Str), d ≠ "chemical" → mapperKey d v = v := by
  refine ⟨?_, ?_, by decide, ?_⟩
  · intro v h
    simp [mapperKey, removeMesh_of_hasMesh_eq_false h]
  · intro v
    simp [mapperKey, removeMesh_meshPat_append]
  · intro d v hd
    simp [mapperKey, hd]

/-- Witness for C4's amended theorem at concrete values. -/
theorem chemical_key_amended_witness :
    (hasMesh (String.data "D1") = false
      ∧ mapperKey "chemical" (String.data "D1") = pyStrip (String.data "D1"))
    ∧ (("gene" : String) ≠ "chemical"
      ∧ mapperKey "gene" (String.data "MESH:D1") = String.data "MESH:D1") :=
  ⟨⟨by decide, chemical_key_amended.1 _ (by decide)⟩,
    ⟨by decide, chemical_key_amended.2.2.2 "gene" _ (by decide)⟩⟩

/-- C10: the chemical mapping removes every occurrence of `'MESH:'` from the
natural-id value, not only a leading prefix: inserting `'MESH:'` anywhere
into a value that contains no occurrence leaves only the trimmed remainder,
and in particular `"XMESH:Y"` is keyed `"XY"`, not left unchanged. -/
theorem chemical_replace_all_occurrences :
    (∀ u w : Str, hasMesh (u ++ w) = false →
        mapperKey "chemical" (u ++ (meshPat ++ w)) = pyStrip (u ++ w))
    ∧ mapperKey "chemical" (String.data "XMESH:Y") = String.data "XY"
    ∧ mapperKey "chemical" (String.data "XMESH:Y") ≠ String.data "XMESH:Y" := by
  refine ⟨?_, by decide, by decide⟩
  intro u w h
  simp [mapperKey, removeMesh_mid u h]

/-- Witness for C10 at a concrete mid-string occurrence. -/
theorem chemical_replace_all_occurrences_witness :
    hasMesh (String.data "X" ++ String.data "Y") = false
    ∧ mapperKey "chemical" (String.data "X" ++ (meshPat ++ String.data "Y"))
        = pyStrip (String.data "X" ++ String.data "Y") :=
  ⟨by decide, chemical_replace_all_occurrences.1 _ _ (by decide)⟩

lemma reconcile_loop_eq (dict : List (String × String)) (l : List (Nat × String)) :
    reconcile_loop dict l
      = ((l.filter (fun p => (dict.lookup p.2).isSome)).map Prod.fst,
        l.filterMap (fun p => dict.lookup p.2)) := by
  induction l with
  | nil => rfl
  | cons p rest ih =>
    simp only [reconcile_loop, ih, List.filter_cons, List.filterMap_cons]
    cases hl : dict.lookup p.2 with
    | none => simp [hl]
    | some dbName => simp [hl]

/-- C2: when the expected columns are a subset of the file header (and the
rename map's keys are, on the header's columns, exactly the expected set, as
the `Table` construction at lines 32-34 guarantees),
`get_index_and_columns_order` returns the indices of exactly the
expected-set columns in header order together with their renamed destination
names; header columns absent from the rename map are dropped. -/
theorem get_index_and_columns_order_subset (expected : List String)
    (dict : List (String × String)) (header : List String)
    (hsub : ∀ c ∈ expected, c ∈ header)
    (hkeys : ∀ c ∈ header, ((dict.lookup c).isSome ↔ c ∈ expected)) :
    (get_index_and_columns_order expected dict header).1
      = (header.enum.filter (fun p => decide (p.2 ∈ expected))).map Prod.fst
    ∧ (get_index_and_columns_order expected dict header).2
      = header.filterMap (fun c => dict.lookup c)
    ∧ (get_index_and_columns_order expected dict header).1.Pairwise (· < ·)
    ∧ ∀ c ∈ expected, ∃ i, i < header.length ∧ header.getD i "" = c
        ∧ i ∈ (get_index_and_columns_order expected dict header).1 := by
  have hif : expected.all (fun c => header.contains c) = true := by
    rw [List.all_eq_true]
    intro c hc
    simpa using hsub c hc
  have hfb : ∀ p ∈ header.enum, ((dict.lookup p.2).isSome = decide (p.2 ∈ expected)) := by
    intro p hp
    have hmemh : p.2 ∈ header := List.snd_mem_of_mem_enumFrom (by simpa [List.enum] using hp)
    have h2 := hkeys p.2 hmemh
    by_cases hmem : p.2 ∈ expected
    · rw [h2.2 hmem, decide_eq_true hmem]
    · have hns : (dict.lookup p.2).isSome = false := by
        cases hval : (dict.lookup p.2).isSome
        · rfl
        · exact absurd (h2.1 hval) hmem
      rw [hns, decide_eq_false hmem]
  have hsnd : header.enum.filterMap (fun p => dict.lookup p.2)
      = header.filterMap (fun c => dict.lookup c) := by
    have h1 : header.enum.map Prod.snd = header := by
      simp [List.enum, List.enumFrom_map_snd]
    conv_rhs => rw [← h1]
    rw [List.filterMap_map]
    rfl
  have hmain : get_index_and_columns_order expected dict header
      = ((header.enum.filter (fun p => decide (p.2 ∈ expected))).map Prod.fst,
        header.filterMap (fun c => dict.lookup c)) := by
    unfold get_index_and_columns_order
    rw [if_pos hif, reconcile_loop_eq, List.filter_congr hfb, hsnd]
  refine ⟨by rw [hmain], by rw [hmain], ?_, ?_⟩
  · rw [hmain]
    have hsl : ((header.enum.filter (fun p => decide (p.2 ∈ expected))).map Prod.fst).Sublist
        (header.enum.map Prod.fst) :=
      (List.filter_sublist _).map _
    refine List.Pairwise.sublist hsl ?_
    have h2 : header.enum.map Prod.fst = List.range' 0 header.length := by
      simp [List.enum, List.enumFrom_map_fst]
    rw [h2]
    exact List.pairwise_lt_range' 0 header.length
  · intro c hc
    obtain ⟨i, hi, hgete⟩ := List.mem_iff_getElem.1 (hsub c hc)
    refine ⟨i, hi, ?_, ?_⟩
    · rw [List.getD_eq_getElem _ _ hi, hgete]
    · rw [hmain]
      apply List.mem_map.2
      refine ⟨(i, c), ?_, rfl⟩
      apply List.mem_filter.2
      refine ⟨?_, by simpa using hc⟩
      exact List.mk_mem_enum_iff_getElem?.2 (by rw [List.getElem?_eq_getElem hi, hgete])

/-- Witness for C2 at a concrete header and rename map. -/
theorem get_index_and_columns_order_subset_witness :
    (∀ c ∈ ["A", "B"], c ∈ (["X", "B", "A"] : List String))
    ∧ (∀ c ∈ (["X", "B", "A"] : List String),
        ((([("A", "a"), ("B", "b")] : List (String × String)).lookup c).isSome
          ↔ c ∈ ["A", "B"]))
    ∧ (get_index_and_columns_order ["A", "B"] [("A", "a"), ("B", "b")] ["X", "B", "A"]).1
        = ((["X", "B", "A"] : List String).enum.filter
            (fun p => decide (p.2 ∈ ["A", "B"]))).map Prod.fst :=
  ⟨by decide, by decide,
    (get_index_and_columns_order_subset _ _ _ (by decide) (by decide)).1⟩

lemma expanderSpecFrom_cons (start : Nat) (a : Option Str) (l : List (Option Str)) :
    expanderSpecFrom start (a :: l)
      = (match a with
          | none => []
          | some v => (splitPipe v).map (fun piece => (start + 1, pyStrip piece)))
        ++ expanderSpecFrom (start + 1) l := by
  cases a <;> simp [expanderSpecFrom]

lemma processO2MChunk_eq_spec (chunk : List (Option Str)) :
    ∀ start, processO2MChunk start chunk = expanderSpecFrom start chunk := by
  induction chunk with
  | nil => intro start; rfl
  | cons a l ih =>
    intro start
    rw [expanderSpecFrom_cons]
    cases a with
    | none =>
      have h1 : processO2MChunk start (none :: l) = processO2MChunk (start + 1) l := by
        simp [processO2MChunk]
      rw [h1, ih]
      rfl
    | some v =>
      have h1 : processO2MChunk start (some v :: l)
          = (splitPipe v).map (fun piece => (start + 1, pyStrip piece))
            ++ processO2MChunk (start + 1) l := by
        simp [processO2MChunk]
      rw [h1, ih]

lemma expanderSpecFrom_append (u v : List (Option Str)) :
    ∀ start, expanderSpecFrom start (u ++ v)
      = expanderSpecFrom start u ++ expanderSpecFrom (start + u.length) v := by
  induction u with
  | nil => intro start; simp [expanderSpecFrom]
  | cons a u ih =>
    intro start
    rw [List.cons_append, expanderSpecFrom_cons, expanderSpecFrom_cons, ih,
      List.append_assoc, List.length_cons]
    have harith : start + 1 + u.length = start + (u.length + 1) := by omega
    rw [harith]

lemma import_o2m_go_eq {csize : Nat} (_hcs : 1 ≤ csize) :
    ∀ (n : Nat) (rows : List (Option Str)), rows.length ≤ n →
      ∀ start, import_o2m_go csize start rows = expanderSpecFrom start rows := by
  intro n
  induction n with
  | zero =>
    intro rows hr start
    rw [List.length_eq_zero.1 (Nat.le_zero.1 hr)]
    simp [import_o2m_go, expanderSpecFrom]
  | succ n ih =>
    intro rows hr start
    cases rows with
    | nil => simp [import_o2m_go, expanderSpecFrom]
    | cons a l =>
      rw [import_o2m_go]
      rw [ih (l.drop (csize - 1)) (by simp at hr ⊢; omega) _]
      rw [processO2MChunk_eq_spec]
      conv_rhs => rw [show a :: l = (a :: l.take (csize - 1)) ++ l.drop (csize - 1) by
        rw [List.cons_append, List.take_append_drop]]
      rw [expanderSpecFrom_append, List.length_cons]
      have harith : start + 1 + (l.take (csize - 1)).length
          = start + ((l.take (csize - 1)).length + 1) := by omega
      rw [harith]

/-- C7: the one-to-many expander, run with any positive chunk size, equals
the spec's per-row expansion: a row with an absent value contributes zero
child rows, a row with a present value is split on `'|'`, each piece is
trimmed, and one child row (parent ordinal + 1, piece) is emitted per
piece. -/
theorem one_to_many_expansion (csize : Nat) (rows : List (Option Str)) (h : 1 ≤ csize) :
    import_one_to_many csize rows = expanderSpec rows := by
  unfold import_one_to_many expanderSpec
  exact import_o2m_go_eq h rows.length rows (Nat.le_refl _) 0

/-- Witness for C7: `"A | B|C"` in file row 5 (0-based ordinal 4) yields
exactly the children (5,"A"), (5,"B"), (5,"C"); absent values yield none. -/
theorem one_to_many_expansion_witness :
    (1 : Nat) ≤ 2
    ∧ import_one_to_many 2 [none, none, none, none, some (String.data "A | B|C"), none]
        = expanderSpec [none, none, none, none, some (String.data "A | B|C"), none]
    ∧ expanderSpec [none, none, none, none, some (String.data "A | B|C"), none]
        = [(5, String.data "A"), (5, String.data "B"), (5, String.data "C")]
    ∧ expanderSpec [none, none, none, none, none, none] = [] :=
  ⟨by decide, one_to_many_expansion 2 _ (by decide), by decide, by decide⟩

lemma mergeStep_nil (cols : List String) (mps : List (String × List (Str × Nat)))
    (d : String) : mergeStep cols mps [] d = [] := by
  unfold mergeStep
  split <;> simp

lemma foldl_mergeStep_nil (cols : List String) (mps : List (String × List (Str × Nat))) :
    ∀ ds : List String, ds.foldl (mergeStep cols mps) [] = [] := by
  intro ds
  induction ds with
  | nil => rfl
  | cons d ds ih => rw [List.foldl_cons, mergeStep_nil, ih]

lemma mergeStep_append (cols : List String) (mps : List (String × List (Str × Nat)))
    (x y : List (Nat × Row)) (d : String) :
    mergeStep cols mps (x ++ y) d = mergeStep cols mps x d ++ mergeStep cols mps y d := by
  unfold mergeStep
  split
  · rw [List.flatMap_append]
  · rfl

lemma foldl_mergeStep_append (cols : List String) (mps : List (String × List (Str × Nat))) :
    ∀ (ds : List String) (x y : List (Nat × Row)),
      ds.foldl (mergeStep cols mps) (x ++ y)
        = ds.foldl (mergeStep cols mps) x ++ ds.foldl (mergeStep cols mps) y := by
  intro ds
  induction ds with
  | nil => intro x y; rfl
  | cons d ds ih =>
    intro x y
    rw [List.foldl_cons, List.foldl_cons, List.foldl_cons, mergeStep_append, ih]

lemma enumFrom_append_eq (u v : List Row) :
    ∀ n, List.enumFrom n (u ++ v) = List.enumFrom n u ++ List.enumFrom (n + u.length) v := by
  induction u with
  | nil => intro n; simp
  | cons a u ih =>
    intro n
    rw [List.cons_append, List.enumFrom_cons, List.enumFrom_cons, ih (n + 1),
      List.cons_append, List.length_cons]
    have harith : n + 1 + u.length = n + (u.length + 1) := by omega
    rw [harith]

lemma processChunk_nil (t : String) (cols : List String)
    (mps : List (String × List (Str × Nat))) (doms : List String) (start : Nat) :
    processChunk t cols mps doms start [] = [] := by
  simp [processChunk, foldl_mergeStep_nil]

lemma processChunk_append (t : String) (cols : List String)
    (mps : List (String × List (Str × Nat))) (doms : List String)
    (start : Nat) (u v : List Row) :
    processChunk t cols mps doms start (u ++ v)
      = processChunk t cols mps doms start u
        ++ processChunk t cols mps doms (start + u.length) v := by
  simp only [processChunk]
  have hc1 : (if t = "exposure_event" then (u ++ v).map updateDisease else u ++ v)
      = (if t = "exposure_event" then u.map updateDisease else u)
        ++ (if t = "exposure_event" then v.map updateDisease else v) := by
    split <;> simp
  have hlen : (if t = "exposure_event" then u.map updateDisease else u).length = u.length := by
    split <;> simp
  rw [hc1, enumFrom_append_eq, hlen, List.map_append]
  by_cases hd : t ∈ doms
  · rw [if_pos hd, if_pos hd, if_pos hd]
  · rw [if_neg hd, if_neg hd, if_neg hd, foldl_mergeStep_append]

lemma import_table_go_eq {csize : Nat} (t : String) (cols : List String)
    (mps : List (String × List (Str × Nat))) (doms : List String) :
    ∀ (n : Nat) (rows : List Row), rows.length ≤ n →
      ∀ start, import_table_go csize t cols mps doms start rows
        = processChunk t cols mps doms start rows := by
  intro n
  induction n with
  | zero =>
    intro rows hr start
    rw [List.length_eq_zero.1 (Nat.le_zero.1 hr)]
    rw [processChunk_nil]
    simp [import_table_go]
  | succ n ih =>
    intro rows hr start
    cases rows with
    | nil => rw [processChunk_nil]; simp [import_table_go]
    | cons a l =>
      rw [import_table_go]
      rw [ih (l.drop (csize - 1)) (by simp at hr ⊢; omega) _]
      conv_rhs => rw [show a :: l = (a :: l.take (csize - 1)) ++ l.drop (csize - 1) by
        rw [List.cons_append, List.take_append_drop]]
      rw [processChunk_append, List.length_cons]
      have harith : start + 1 + (l.take (csize - 1)).length
          = start + ((l.take (csize - 1)).length + 1) := by omega
      rw [harith]

lemma filter_key_eq {m : List (Str × Nat)} {x : Str} {k : Nat}
    (hmem : (x, k) ∈ m) (hnd : (m.map Prod.fst).Nodup) :
    m.filter (fun p => decide (p.1 = x)) = [(x, k)] := by
  induction m with
  | nil => cases hmem
  | cons a rest ih =>
    rw [List.map_cons, List.nodup_cons] at hnd
    rcases List.mem_cons.1 hmem with heq | hmem2
    · rw [← heq] at hnd ⊢
      have hrest : rest.filter (fun p => decide (p.1 = x)) = [] := by
        rw [List.filter_eq_nil_iff]
        intro p hp
        simp only [decide_eq_true_eq]
        intro hpx
        apply hnd.1
        show x ∈ List.map Prod.fst rest
        rw [← hpx]
        exact List.mem_map_of_mem Prod.fst hp
      rw [List.filter_cons_of_pos (by simp), hrest]
    · have hax : ¬ a.1 = x := by
        intro hax
        apply hnd.1
        rw [hax]
        exact List.mem_map_of_mem Prod.fst hmem2
      rw [List.filter_cons_of_neg (by simp [hax]), ih hmem2 hnd.2]

lemma mergeStep_id_mem (cols : List String) (mps : List (String × List (Str × Nat))) :
    ∀ (ds : List String) (acc : List (Nat × Row)) (p : Nat × Row),
      p ∈ ds.foldl (mergeStep cols mps) acc → ∃ q ∈ acc, p.1 = q.1 := by
  intro ds
  induction ds with
  | nil => intro acc p hp; exact ⟨p, hp, rfl⟩
  | cons d ds ih =>
    intro acc p hp
    rw [List.foldl_cons] at hp
    obtain ⟨q, hq, hpq⟩ := ih _ p hp
    unfold mergeStep at hq
    split at hq
    · obtain ⟨r, hr, hqr⟩ := List.mem_flatMap.1 hq
      obtain ⟨row, hrow, hqe⟩ := List.mem_map.1 hqr
      exact ⟨r, hr, by rw [hpq, ← hqe]⟩
    · exact ⟨q, hq, hpq⟩

lemma mem_ids_of_mem_enumFrom_map (start : Nat) (c1 : List Row) (q : Nat × Row)
    (hq : q ∈ (List.enumFrom start c1).map (fun p => (p.1 + 1, p.2))) :
    ∃ i, i < c1.length ∧ q.1 = start + i + 1 := by
  obtain ⟨r, hr, hqe⟩ := List.mem_map.1 hq
  have h1 := List.le_fst_of_mem_enumFrom hr
  have h2 := List.fst_lt_add_of_mem_enumFrom hr
  refine ⟨r.1 - start, by omega, ?_⟩
  rw [← hqe]
  show r.1 + 1 = start + (r.1 - start) + 1
  omega

lemma processChunk_id (t : String) (cols : List String)
    (mps : List (String × List (Str × Nat))) (doms : List String)
    (start : Nat) (rows : List Row) (p : Nat × Row)
    (hp : p ∈ processChunk t cols mps doms start rows) :
    ∃ i, i < rows.length ∧ p.1 = start + i + 1 := by
  have hlen : (if t = "exposure_event" then rows.map updateDisease else rows).length
      = rows.length := by
    split <;> simp
  simp only [processChunk] at hp
  split at hp
  · obtain ⟨i, hi, he⟩ := mem_ids_of_mem_enumFrom_map _ _ _ hp
    exact ⟨i, by rw [hlen] at hi; exact hi, he⟩
  · obtain ⟨q, hq, hpq⟩ := mergeStep_id_mem cols mps doms _ p hp
    obtain ⟨i, hi, he⟩ := mem_ids_of_mem_enumFrom_map _ _ _ hq
    exact ⟨i, by rw [hlen] at hi; exact hi, by rw [hpq, he]⟩

lemma mem_expanderSpec (orows : List (Option Str)) (p : Nat × Str)
    (hp : p ∈ expanderSpec orows) :
    ∃ i v, orows[i]? = some (some v) ∧ p.1 = i + 1
      ∧ p.2 ∈ (splitPipe v).map pyStrip := by
  unfold expanderSpec expanderSpecFrom at hp
  obtain ⟨q, hq, hpblock⟩ := List.mem_flatMap.1 hp
  have hget := (List.mk_mem_enumFrom_iff_le_and_getElem?_sub.1 (by
    rw [show (q.1, q.2) = q from rfl]
    exact hq)).2
  rw [Nat.sub_zero] at hget
  rcases q with ⟨i, a⟩
  cases a with
  | none => cases hpblock
  | some v =>
    obtain ⟨piece, hpiece, hpe⟩ := List.mem_map.1 hpblock
    refine ⟨i, v, by simpa using hget, ?_, ?_⟩
    · rw [← hpe]
    · rw [← hpe]
      exact List.mem_map_of_mem pyStrip hpiece

/-- C5: for the table `exposure_event` (and no other table) the loader
prepends `'MESH:'` to the disease-identifier column before the surrogate-key
assignment and before the foreign-key merge: the disease mapping is probed
with the prefixed value, while any other table probes it with the raw value
(here: the mapping holds only the prefixed key, so every other table gets
a NaN foreign key). -/
theorem exposure_event_mesh_prepend :
    (∀ (s : Str) (k start : Nat) (m : List (Str × Nat)),
        (meshPat ++ s, k) ∈ m → (m.map Prod.fst).Nodup →
        processChunk "exposure_event" ["disease_id"] [("disease", m)] ["disease"] start
            [[("disease_id", some (Val.s s))]]
          = [(start + 1, [("disease__id", some (Val.n k))])])
    ∧ (∀ (t : String) (s : Str) (k start : Nat),
        t ≠ "exposure_event" → t ≠ "disease" →
        processChunk t ["disease_id"] [("disease", [(meshPat ++ s, k)])] ["disease"] start
            [[("disease_id", some (Val.s s))]]
          = [(start + 1, [("disease__id", none)])]) := by
  constructor
  · intro s k start m hmem hnd
    have hfil := filter_key_eq hmem hnd
    simp [processChunk, updateDisease, meshify, mergeStep, mergeRow, rowGet, rowDel, hfil]
  · intro t s k start hne hnd2
    have hfil : ([(meshPat ++ s, k)] : List (Str × Nat)).filter
        (fun p => decide (p.1 = s)) = [] := by
      rw [List.filter_eq_nil_iff]
      intro p hp
      simp only [List.mem_singleton] at hp
      subst hp
      simp only [decide_eq_true_eq]
      intro hx
      have := congrArg List.length hx
      simp [meshPat] at this
      omega
    simp [processChunk, mergeStep, mergeRow, rowGet, rowDel, hfil, hne, hnd2]

/-- Witness for C5: `disease_id = "D000123"` matches the mapping entry
`("MESH:D000123", 7)` under `exposure_event`, and misses it under another
table name. -/
theorem exposure_event_mesh_prepend_witness :
    ((meshPat ++ String.data "D000123", 7) ∈ [(meshPat ++ String.data "D000123", 7)]
      ∧ (([(meshPat ++ String.data "D000123", 7)].map Prod.fst).Nodup)
      ∧ processChunk "exposure_event" ["disease_id"]
          [("disease", [(meshPat ++ String.data "D000123", 7)])] ["disease"] 0
          [[("disease_id", some (Val.s (String.data "D000123")))]]
        = [(1, [("disease__id", some (Val.n 7))])])
    ∧ (("chemical_disease" : String) ≠ "exposure_event"
      ∧ ("chemical_disease" : String) ≠ "disease"
      ∧ processChunk "chemical_disease" ["disease_id"]
          [("disease", [(meshPat ++ String.data "D000123", 7)])] ["disease"] 0
          [[("disease_id", some (Val.s (String.data "D000123")))]]
        = [(1, [("disease__id", none)])]) :=
  ⟨⟨by decide, by decide,
      exposure_event_mesh_prepend.1 _ 7 0 _ (by decide) (by decide)⟩,
    ⟨by decide, by decide,
      exposure_event_mesh_prepend.2 "chemical_disease" _ 7 0 (by decide) (by decide)⟩⟩

/-- C6: a table that is not itself a mappable domain has each `<domain>_id`
column of its read plan left-joined against that domain's mapping and then
deleted: a row whose natural id is in the mapping carries the domain's
surrogate id, a row whose natural id is absent is kept with a NaN foreign
key; a table that is itself a mappable domain undergoes no substitution at
all. -/
theorem foreign_key_substitution :
    (∀ (t : String) (s x : Str) (k start : Nat) (m : List (Str × Nat)),
        t ≠ "exposure_event" → t ≠ "chemical" →
        (s, k) ∈ m → (m.map Prod.fst).Nodup →
        processChunk t ["chemical_id", "cn"] [("chemical", m)] ["chemical"] start
            [[("chemical_id", some (Val.s s)), ("cn", some (Val.s x))]]
          = [(start + 1, [("cn", some (Val.s x)), ("chemical__id", some (Val.n k))])])
    ∧ (∀ (t : String) (s x : Str) (start : Nat) (m : List (Str × Nat)),
        t ≠ "exposure_event" → t ≠ "chemical" →
        (∀ p ∈ m, p.1 ≠ s) →
        processChunk t ["chemical_id", "cn"] [("chemical", m)] ["chemical"] start
            [[("chemical_id", some (Val.s s)), ("cn", some (Val.s x))]]
          = [(start + 1, [("cn", some (Val.s x)), ("chemical__id", none)])])
    ∧ (∀ (t : String) (cols : List String) (mps : List (String × List (Str × Nat)))
        (doms : List String) (start : Nat) (chunk : List Row),
        t ∈ doms → t ≠ "exposure_event" →
        processChunk t cols mps doms start chunk
          = (List.enumFrom start chunk).map (fun p => (p.1 + 1, p.2))) := by
  refine ⟨?_, ?_, ?_⟩
  · intro t s x k start m hne hnd2 hmem hnd
    have hfil := filter_key_eq hmem hnd
    simp [processChunk, mergeStep, mergeRow, rowGet, rowDel, hfil, hne, hnd2]
  · intro t s x start m hne hnd2 hunm
    have hfil : m.filter (fun p => decide (p.1 = s)) = [] := by
      rw [List.filter_eq_nil_iff]
      intro p hp
      simp only [decide_eq_true_eq]
      exact hunm p hp
    simp [processChunk, mergeStep, mergeRow, rowGet, rowDel, hfil, hne, hnd2]
  · intro t cols mps doms start chunk hin hne
    simp [processChunk, hin, hne]

/-- Witness for C6: a matched and an unmatched foreign key, and a mappable
domain table. -/
theorem foreign_key_substitution_witness :
    (("chem_gene_ixn" : String) ≠ "exposure_event"
      ∧ ("chem_gene_ixn" : String) ≠ "chemical"
      ∧ (String.data "C1", 3) ∈ [(String.data "C1", 3)]
      ∧ (([(String.data "C1", 3)].map Prod.fst).Nodup)
      ∧ processChunk "chem_gene_ixn" ["chemical_id", "cn"]
          [("chemical", [(String.data "C1", 3)])] ["chemical"] 0
          [[("chemical_id", some (Val.s (String.data "C1"))),
            ("cn", some (Val.s (String.data "v")))]]
        = [(1, [("cn", some (Val.s (String.data "v"))),
            ("chemical__id", some (Val.n 3))])])
    ∧ ((∀ p ∈ [(String.data "C1", 3)], p.1 ≠ String.data "C2")
      ∧ processChunk "chem_gene_ixn" ["chemical_id", "cn"]
          [("chemical", [(String.data "C1", 3)])] ["chemical"] 0
          [[("chemical_id", some (Val.s (String.data "C2"))),
            ("cn", some (Val.s (String.data "v")))]]
        = [(1, [("cn", some (Val.s (String.data "v"))), ("chemical__id", none)])])
    ∧ (("chemical" : String) ∈ ["chemical"]
      ∧ processChunk "chemical" ["chemical_id"] [("chemical", [(String.data "C1", 3)])]
          ["chemical"] 0 [[("chemical_id", some (Val.s (String.data "C1")))]]
        = (List.enumFrom 0 [[("chemical_id", some (Val.s (String.data "C1")))]]).map
            (fun p => (p.1 + 1, p.2))) :=
  ⟨⟨by decide, by decide, by decide, by decide,
      foreign_key_substitution.1 "chem_gene_ixn" _ _ 3 0 _ (by decide) (by decide)
        (by decide) (by decide)⟩,
    ⟨by decide,
      foreign_key_substitution.2.1 "chem_gene_ixn" _ _ 0 _ (by decide) (by decide)
        (by decide)⟩,
    ⟨by decide,
      foreign_key_substitution.2.2 "chemical" _ _ _ 0 _ (by decide) (by decide)⟩⟩

/-- C8: the loader's surrogate keys are exactly (0-based file ordinal + 1),
unchanged by the chunked read (any positive chunk size gives the same result
as one pass over the whole file, the pandas index continuing across chunks);
the one-to-many expander is likewise chunking-invariant and assigns each
child row the parent key (pre-dropna file ordinal + 1), which is the
surrogate key the loader assigns to the same file row. -/
theorem surrogate_key_invariant :
    (∀ (csize : Nat) (t : String) (cols : List String)
        (mps : List (String × List (Str × Nat))) (doms : List String) (rows : List Row),
        1 ≤ csize →
        import_table_in_db csize t cols mps doms rows
          = processChunk t cols mps doms 0 rows)
    ∧ (∀ (t : String) (cols : List String) (mps : List (String × List (Str × Nat)))
        (doms : List String) (rows : List Row) (p : Nat × Row),
        p ∈ processChunk t cols mps doms 0 rows → ∃ i, i < rows.length ∧ p.1 = i + 1)
    ∧ (∀ (t : String) (cols : List String) (mps : List (String × List (Str × Nat)))
        (doms : List String) (rows : List Row) (i : Nat),
        t ∈ doms → t ≠ "exposure_event" → i < rows.length →
        (processChunk t cols mps doms 0 rows)[i]? = some (i + 1, rows.getD i []))
    ∧ (∀ (csize : Nat) (orows : List (Option Str)), 1 ≤ csize →
        import_one_to_many csize orows = expanderSpec orows)
    ∧ (∀ (orows : List (Option Str)) (p : Nat × Str), p ∈ expanderSpec orows →
        ∃ i v, orows[i]? = some (some v) ∧ p.1 = i + 1
          ∧ p.2 ∈ (splitPipe v).map pyStrip) := by
  refine ⟨?_, ?_, ?_, ?_, mem_expanderSpec⟩
  · intro csize t cols mps doms rows hcs
    unfold import_table_in_db
    exact import_table_go_eq t cols mps doms rows.length rows (Nat.le_refl _) 0
  · intro t cols mps doms rows p hp
    obtain ⟨i, hi, he⟩ := processChunk_id t cols mps doms 0 rows p hp
    exact ⟨i, hi, by omega⟩
  · intro t cols mps doms rows i hin hne hi
    rw [foreign_key_substitution.2.2 t cols mps doms 0 rows hin hne]
    rw [List.getElem?_map, List.getElem?_enumFrom, List.getElem?_eq_getElem hi,
      List.getD_eq_getElem _ _ hi]
    simp
  · intro csize orows hcs
    unfold import_one_to_many expanderSpec
    exact import_o2m_go_eq hcs orows.length orows (Nat.le_refl _) 0

/-- Witness for C8: a three-row file loaded with chunk size 2 carries ids
1, 2, 3. -/
theorem surrogate_key_invariant_witness :
    (1 : Nat) ≤ 2
    ∧ import_table_in_db 2 "chemical" ["chemical_id"] [] ["chemical"]
        [[("chemical_id", some (Val.s (String.data "a")))],
          [("chemical_id", some (Val.s (String.data "b")))],
          [("chemical_id", some (Val.s (String.data "c")))]]
        = processChunk "chemical" ["chemical_id"] [] ["chemical"] 0
            [[("chemical_id", some (Val.s (String.data "a")))],
              [("chemical_id", some (Val.s (String.data "b")))],
              [("chemical_id", some (Val.s (String.data "c")))]]
    ∧ (processChunk "chemical" ["chemical_id"] [] ["chemical"] 0
          [[("chemical_id", some (Val.s (String.data "a")))],
            [("chemical_id", some (Val.s (String.data "b")))],
            [("chemical_id", some (Val.s (String.data "c")))]]).map Prod.fst
        = [1, 2, 3] :=
  ⟨by decide,
    surrogate_key_invariant.1 2 _ _ _ _ _ (by decide),
    by decide⟩
